import Mathlib

/-!
Shallow embedding of `include/bvh/utilities.hpp` (namespace `bvh`) and
verification of its specified properties.

Conventions of the embedding:
  machine integers and floating-point bit patterns are `Nat` values bounded
  by `2 ^ w`; C++ arrays of length `count` are `List` values; the in-place
  loops are embedded as explicit state passing (`List.foldl` over the index
  range, each iteration writing one slot with `List.set`); the atomic
  compare-and-swap loop is modelled sequentially with an explicit budget of
  spurious `compare_exchange_weak` failures.
-/

namespace BvhSpec

/-! Bit-level model of `product_sign` (utilities.hpp lines 23-31).
The C++ overloads reinterpret the operands as unsigned integers of the same
width, XOR the bits of `x` with the masked sign bit of `y`, and reinterpret
back; reinterpretation is the identity on bit patterns, so the model works
directly on the bit patterns. -/

/-- Embedding of `product_sign(float x, float y)`: bit pattern of the result,
given the bit patterns of the operands. -/
def product_sign32 (x y : Nat) : Nat :=
  x ^^^ (y &&& 0x80000000)

/-- Embedding of `product_sign(double x, double y)`: bit pattern of the result,
given the bit patterns of the operands. -/
def product_sign64 (x y : Nat) : Nat :=
  x ^^^ (y &&& 0x8000000000000000)

/-- Model of IEEE-754 `copysign` on 32-bit patterns: the magnitude (all
non-sign bits) of the first argument with the sign bit of the second. -/
def copysign_bits32 (mag sgn : Nat) : Nat :=
  (mag &&& 0x7fffffff) ||| (sgn &&& 0x80000000)

/-- Model of IEEE-754 `copysign` on 64-bit patterns. -/
def copysign_bits64 (mag sgn : Nat) : Nat :=
  (mag &&& 0x7fffffffffffffff) ||| (sgn &&& 0x8000000000000000)

/-- Model of the sign bit of the IEEE-754 product `x * y` for finite operands:
by IEEE-754, the sign of a product (also when it underflows to zero or
overflows to infinity) is the XOR of the operand signs. -/
def mul_sign_bits32 (x y : Nat) : Nat :=
  (x ^^^ y) &&& 0x80000000

/-- Model of the sign bit of the IEEE-754 product of finite 64-bit operands. -/
def mul_sign_bits64 (x y : Nat) : Nat :=
  (x ^^^ y) &&& 0x8000000000000000

/-- Finiteness of a 32-bit IEEE-754 pattern: the 8-bit exponent field is not
all ones (all ones encodes infinities and NaNs). -/
def isFinite32 (x : Nat) : Prop :=
  (x >>> 23) &&& 0xff ≠ 0xff

/-- Finiteness of a 64-bit IEEE-754 pattern: the 11-bit exponent field is not
all ones. -/
def isFinite64 (x : Nat) : Prop :=
  (x >>> 52) &&& 0x7ff ≠ 0x7ff

/-! Byte-level model of `as<To, From>` (utilities.hpp lines 15-21).
The C++ function declares an uninitialized `To to;`, executes
`memcpy(&to, &from, sizeof(from))` and returns `to`. The model takes the
uninitialized bytes of `to` and the bytes of `from`; the copy writes
`sizeof(from)` bytes starting at the beginning of `to`, so the result keeps
any uninitialized tail when the source is smaller than the destination (and
when the source is larger, only the first `sizeof(to)` copied bytes land
inside the returned object, the rest of the write going out of bounds). -/

/-- Embedding of `as<To, From>`: bytes of the returned `To` object. -/
def as_bytes (toUninit fromBytes : List Nat) : List Nat :=
  fromBytes.take toUninit.length ++ toUninit.drop fromBytes.length

/-! Sequential model of `atomic_max` (utilities.hpp lines 49-53):

  auto z = x.load();
  while (z < y && !x.compare_exchange_weak(z, y)) ;

`s` is the value held by the shared atomic, `z` the local copy. Executed
sequentially (no interleaved writers) the expected value `z` always equals
the current shared value, so `compare_exchange_weak` fails only spuriously;
the model takes the number of spurious failures the scheduler inflicts, and
on each failure `compare_exchange_weak` reloads `z` with the shared value.
The result is the final shared value paired with the number of CAS
operations executed. -/

/-- Loop of `atomic_max`: arguments are candidate `y`, shared value `s`,
loaded copy `z`, remaining spurious-failure budget, and the count of CAS
operations executed so far. -/
def atomicMaxGo (y s : Int) : Int → Nat → Nat → Int × Nat
  | z, 0, casCount =>
    if z < y then (y, casCount + 1) else (s, casCount)
  | z, spurious + 1, casCount =>
    if z < y then atomicMaxGo y s s spurious (casCount + 1) else (s, casCount)

/-- Embedding of `atomic_max(x, y)` run sequentially against a shared atomic
holding `s`, with `spurious` spurious CAS failures: final shared value and
number of CAS operations executed. -/
def atomic_max (s y : Int) (spurious : Nat) : Int × Nat :=
  atomicMaxGo y s s spurious 0

/-! Embedding of the `RoundedUpLog2` template (utilities.hpp lines 85-97).
The primary template seeds `Found = (P == 0)`; the `Found = false`
specialization recurses with `I + 1` and `Found = (2 ^ (I + 1) >= P)`; the
`Found = true` specialization yields `I`. -/

/-- Recursion of the `RoundedUpLog2<P, I, Found>` template: the member
`value`. -/
def RoundedUpLog2.value (P I : Nat) (Found : Bool) : Nat :=
  if Found then I
  else RoundedUpLog2.value P (I + 1) (decide (2 ^ (I + 1) ≥ P))
termination_by if Found then 0 else P + 1 - 2 ^ I + 1
decreasing_by
  rename_i hFound
  have hpow : (2:Nat) ^ I < 2 ^ (I + 1) :=
    Nat.pow_lt_pow_right (by norm_num) (Nat.lt_succ_self I)
  rw [if_neg hFound]
  by_cases hge : 2 ^ (I + 1) ≥ P
  · rw [if_pos (by simpa using hge)]
    omega
  · rw [if_neg (by simpa using hge)]
    omega

/-- Embedding of `RoundedUpLog2<P>::value` (the default arguments of the
primary template are `I = 0`, `Found = (P == 0)`). -/
def RoundedUpLog2 (P : Nat) : Nat :=
  RoundedUpLog2.value P 0 (decide (P = 0))

/-- Modelled from the spec: the ceiling base-2 logarithm, the smallest
integer `k` such that `2 ^ k >= P`. -/
def ceiling_log2_spec (P : Nat) : Nat :=
  Nat.find (⟨P, Nat.le_of_lt (Nat.lt_two_pow P)⟩ : ∃ k, P ≤ 2 ^ k)

/-! Embedding of `shuffle_primitives` (utilities.hpp lines 55-62). The C++
moves all `count` primitives into a scratch copy, then the loop writes
`primitives[i] = copy[indices[i]]` for `i = 0, ..., count - 1`; every read
is from the scratch copy, which holds the original contents, and every
iteration writes exactly slot `i`. The fold below passes the mutated array
through explicitly; `d` is the default returned by out-of-bounds reads
(never hit when `indices` maps `[0, count)` into itself). -/

/-- Embedding of `shuffle_primitives(primitives, indices, primitive_count)`. -/
def shuffle_primitives {α : Type} (primitives : List α) (indices : List Nat) (d : α) :
    List α :=
  (List.range primitives.length).foldl
    (fun prims i => prims.set i (primitives.getD (indices.getD i 0) d))
    primitives

/-! Embedding of `compute_bounding_boxes_and_centers` (utilities.hpp lines
64-75). The C++ allocates two arrays of `count` default-constructed
elements, then a parallel loop writes `bboxes[i] = primitives[i].bounding_box()`
and `centers[i] = primitives[i].center()` for each `i`. `Primitive` is an
opaque caller-supplied type, so the embedding is parametric in the element
type and in the two member functions. The OpenMP parallel loop executes the
iterations in an arbitrary order, so the embedding takes the execution
order as an explicit list of indices; the sequential order is
`List.range count`. -/

/-- Embedding of the loop of `compute_bounding_boxes_and_centers`, executing
the iterations whose indices are listed in `ord` (in that order) starting
from the two freshly allocated output arrays. -/
def compute_bbc_ordered {α β γ : Type} (bounding_box : α → β) (center : α → γ)
    (primitives : List α) (dp : α) (db : β) (dc : γ) (ord : List Nat) :
    List β × List γ :=
  ord.foldl
    (fun st i =>
      (st.1.set i (bounding_box (primitives.getD i dp)),
       st.2.set i (center (primitives.getD i dp))))
    (List.replicate primitives.length db, List.replicate primitives.length dc)

/-- Embedding of `compute_bounding_boxes_and_centers(primitives, count)`:
the loop run in the sequential iteration order. -/
def compute_bounding_boxes_and_centers {α β γ : Type} (bounding_box : α → β)
    (center : α → γ) (primitives : List α) (dp : α) (db : β) (dc : γ) :
    List β × List γ :=
  compute_bbc_ordered bounding_box center primitives dp db dc
    (List.range primitives.length)

/-! Unfolding lemmas for the `RoundedUpLog2` recursion. -/

/-- Unfolding of the `Found = true` specialization. -/
theorem RoundedUpLog2.value_true (P I : Nat) : RoundedUpLog2.value P I true = I := by
  rw [RoundedUpLog2.value]
  simp

/-- Unfolding of the `Found = false` specialization. -/
theorem RoundedUpLog2.value_false (P I : Nat) :
    RoundedUpLog2.value P I false =
      RoundedUpLog2.value P (I + 1) (decide (2 ^ (I + 1) ≥ P)) := by
  rw [RoundedUpLog2.value]
  simp

/-- Characterization of `ceiling_log2_spec` by its defining property. -/
theorem ceiling_log2_spec_eq (P k : Nat) (h1 : P ≤ 2 ^ k)
    (h2 : ∀ m, m < k → ¬ P ≤ 2 ^ m) : ceiling_log2_spec P = k := by
  rw [ceiling_log2_spec, Nat.find_eq_iff]
  exact ⟨h1, h2⟩

/-- When the recursion is entered with `2 ^ I < P`, it computes the smallest
`k` with `2 ^ k ≥ P` (the fuel `d` bounds `P - 2 ^ I` for the induction). -/
theorem RoundedUpLog2.value_false_eq_spec :
    ∀ (d P I : Nat), P - 2 ^ I ≤ d → 2 ^ I < P →
      RoundedUpLog2.value P I false = ceiling_log2_spec P := by
  intro d
  induction d with
  | zero =>
    intro P I hle hlt
    exact absurd hlt (by omega)
  | succ d ih =>
    intro P I hle hlt
    have hpow : (2:Nat) ^ I < 2 ^ (I + 1) :=
      Nat.pow_lt_pow_right (by norm_num) (Nat.lt_succ_self I)
    rw [RoundedUpLog2.value_false]
    by_cases hge : 2 ^ (I + 1) ≥ P
    · rw [decide_eq_true hge, RoundedUpLog2.value_true]
      refine (ceiling_log2_spec_eq P (I + 1) hge ?_).symm
      intro m hm hPm
      have hmle : (2:Nat) ^ m ≤ 2 ^ I := Nat.pow_le_pow_right (by norm_num) (by omega)
      omega
    · rw [decide_eq_false hge]
      exact ih P (I + 1) (by omega) (by omega)

/-- For every `P ≥ 2` the template agrees with the specified ceiling base-2
logarithm (the discrepancy is confined to `P = 1`). -/
theorem RoundedUpLog2_eq_spec_of_two_le (P : Nat) (h : 2 ≤ P) :
    RoundedUpLog2 P = ceiling_log2_spec P := by
  rw [RoundedUpLog2, decide_eq_false (by omega : ¬ P = 0)]
  exact RoundedUpLog2.value_false_eq_spec P P 0 (Nat.sub_le P (2 ^ 0)) (by simpa using h)

/-- Witness instantiating `RoundedUpLog2_eq_spec_of_two_le` at `P = 2`. -/
theorem RoundedUpLog2_eq_spec_of_two_le_witness :
    2 ≤ 2 ∧ RoundedUpLog2 2 = ceiling_log2_spec 2 :=
  ⟨by decide, RoundedUpLog2_eq_spec_of_two_le 2 (by decide)⟩

/-- The spec examples that the code does satisfy: the template value for
`P = 2, 3, 4, 5, 1024`. -/
theorem RoundedUpLog2_spec_examples :
    RoundedUpLog2 2 = 1 ∧ RoundedUpLog2 3 = 2 ∧ RoundedUpLog2 4 = 2 ∧
      RoundedUpLog2 5 = 3 ∧ RoundedUpLog2 1024 = 10 := by
  refine ⟨?_, ?_, ?_, ?_, ?_⟩ <;>
  · rw [RoundedUpLog2_eq_spec_of_two_le _ (by norm_num)]
    refine ceiling_log2_spec_eq _ _ (by norm_num) ?_
    intro m hm
    interval_cases m <;> norm_num

/-- C1: the ceiling base-2 logarithm helper should satisfy
`RoundedUpLog2<P>::value = smallest k with 2 ^ k >= P`, in particular `0`
for `P = 1`. The code evaluates `RoundedUpLog2<1>::value` to `1` (the
primary template seeds `Found = (P == 0)`, which is `false` for `P = 1`, so
the recursion never tests `2 ^ 0 >= P` and stops at `I = 1`), while the
smallest `k` with `2 ^ k >= 1` is `0`: the code diverges from the claim and
from its own documentation at `P = 1`. -/
theorem RoundedUpLog2_one_bug : RoundedUpLog2 1 = 1 ∧ ceiling_log2_spec 1 = 0 := by
  constructor
  · rw [RoundedUpLog2, show decide ((1:Nat) = 0) = false from by decide,
      RoundedUpLog2.value_false,
      show decide (2 ^ (0 + 1) ≥ (1:Nat)) = true from by decide,
      RoundedUpLog2.value_true]
  · refine ceiling_log2_spec_eq 1 0 (by decide) ?_
    intro m hm
    omega

/-- C9: instantiating the helper with `P = 0` (excluded by the spec
precondition `P > 0`) is well-defined and yields `0`: the `Found = (P == 0)`
base case fires immediately at `I = 0`. -/
theorem RoundedUpLog2_zero : RoundedUpLog2 0 = 0 := by
  rw [RoundedUpLog2, show decide ((0:Nat) = 0) = true from by decide,
    RoundedUpLog2.value_true]

/-! Properties of the sequential `atomic_max` model. -/

/-- The loop entered with `z = s` (the sequential invariant: the loaded copy
equals the shared value) terminates with the shared value `max s y`,
whatever the spurious-failure budget and CAS count. -/
theorem atomicMaxGo_loaded_fst (y s : Int) :
    ∀ (n c : Nat), (atomicMaxGo y s s n c).1 = max s y := by
  intro n
  induction n with
  | zero =>
    intro c
    by_cases h : s < y
    · simp [atomicMaxGo, h, max_eq_right (le_of_lt h)]
    · simp [atomicMaxGo, h, max_eq_left (le_of_not_lt h)]
  | succ n ih =>
    intro c
    by_cases h : s < y
    · simpa [atomicMaxGo, h] using ih (c + 1)
    · simp [atomicMaxGo, h, max_eq_left (le_of_not_lt h)]

/-- C5: for a shared scalar holding `v = s` and candidate `y`, after
`atomic_max` completes — modelled sequentially with any finite number of
spurious compare-and-swap failures — the shared scalar equals `max s y`;
hence it is at least the candidate and at least the value it held before
the call. -/
theorem atomic_max_correct (s y : Int) (spurious : Nat) :
    (atomic_max s y spurious).1 = max s y ∧ y ≤ (atomic_max s y spurious).1 ∧
      s ≤ (atomic_max s y spurious).1 := by
  unfold atomic_max
  have h := atomicMaxGo_loaded_fst y s spurious 0
  refine ⟨h, ?_, ?_⟩
  · rw [h]; exact le_max_right s y
  · rw [h]; exact le_max_left s y

/-- C8: when the candidate is at most the current shared value, the loop
condition `z < y` is false at the first test, so no compare-and-swap is
executed at all and the shared scalar is returned unchanged. -/
theorem atomic_max_no_cas_of_le (s y : Int) (spurious : Nat) (h : y ≤ s) :
    atomic_max s y spurious = (s, 0) := by
  unfold atomic_max
  cases spurious <;> simp [atomicMaxGo, not_lt.mpr h]

/-- Witness instantiating `atomic_max_no_cas_of_le` at `s = 5`, `y = 3`,
four spurious failures allowed. -/
theorem atomic_max_no_cas_of_le_witness :
    (3:Int) ≤ 5 ∧ atomic_max 5 3 4 = (5, 0) :=
  ⟨by decide, atomic_max_no_cas_of_le 5 3 4 (by decide)⟩

/-- C6: the claim asserts that a size-mismatched instantiation of
`as<To, From>` is rejected at compile time by a static assertion. The code
contains no static assertion: the model of `as<double, float>` (destination
8 bytes, source 4 bytes) produces a result, and that result depends on the
uninitialized destination bytes — two different uninitialized states give
two different return values — whereas an equal-size instantiation is fully
determined by the source bytes. -/
theorem as_bytes_mismatch_not_rejected :
    as_bytes [0, 0, 0, 0, 0, 0, 0, 0] [0xAA, 0xBB, 0xCC, 0xDD] ≠
      as_bytes [9, 9, 9, 9, 9, 9, 9, 9] [0xAA, 0xBB, 0xCC, 0xDD] ∧
    as_bytes [0, 0, 0, 0] [1, 2, 3, 4] = [1, 2, 3, 4] := by
  decide

/-! Bit-level lemmas for `product_sign`. -/

/-- Masking twice with the same mask is the same as masking once. -/
theorem land_land_self (a m : Nat) : (a &&& m) &&& m = a &&& m := by
  apply Nat.eq_of_testBit_eq
  intro i
  simp only [Nat.testBit_land]
  cases a.testBit i <;> cases m.testBit i <;> rfl

/-- XORing `x` with the masked bit `w` of `y` leaves the low `w` bits of `x`
unchanged. -/
theorem xor_masked_low (w x y : Nat) :
    (x ^^^ (y &&& 2 ^ w)) &&& (2 ^ w - 1) = x &&& (2 ^ w - 1) := by
  apply Nat.eq_of_testBit_eq
  intro i
  simp only [Nat.testBit_land, Nat.testBit_xor, Nat.testBit_two_pow,
    Nat.testBit_two_pow_sub_one]
  by_cases hiw : i < w
  · rw [decide_eq_true hiw, decide_eq_false (by omega : ¬ w = i)]
    cases x.testBit i <;> cases y.testBit i <;> rfl
  · rw [decide_eq_false hiw]
    simp

/-- XORing `x` with the masked bit `w` of `y` XORs the two bits at
position `w`. -/
theorem xor_masked_sign_bit (w x y : Nat) :
    (x ^^^ (y &&& 2 ^ w)).testBit w = ((x.testBit w).xor (y.testBit w)) := by
  simp only [Nat.testBit_xor, Nat.testBit_land, Nat.testBit_two_pow]
  simp

/-- Core identity behind `product_sign`: for `x` of width `w + 1`, XORing in
the masked bit `w` of `y` equals recombining the low bits of `x` with the
XOR of the two top bits — that is, `copysign` of `x` with the modelled
product sign. -/
theorem xor_masked_eq_copysign (w x y : Nat) (hx : x < 2 ^ (w + 1)) :
    x ^^^ (y &&& 2 ^ w) = (x &&& (2 ^ w - 1)) ||| ((x ^^^ y) &&& 2 ^ w) := by
  apply Nat.eq_of_testBit_eq
  intro i
  simp only [Nat.testBit_xor, Nat.testBit_land, Nat.testBit_lor, Nat.testBit_two_pow,
    Nat.testBit_two_pow_sub_one]
  rcases lt_trichotomy i w with h | h | h
  · rw [decide_eq_false (by omega : ¬ w = i), decide_eq_true h]
    cases x.testBit i <;> cases y.testBit i <;> rfl
  · subst h
    rw [decide_eq_true (Eq.refl i), decide_eq_false (lt_irrefl i)]
    cases x.testBit i <;> cases y.testBit i <;> rfl
  · have hxi : x.testBit i = false :=
      Nat.testBit_lt_two_pow
        (lt_of_lt_of_le hx (Nat.pow_le_pow_right (by norm_num) (by omega)))
    rw [decide_eq_false (by omega : ¬ w = i), decide_eq_false (by omega : ¬ i < w), hxi]
    cases y.testBit i <;> rfl

/-- C2: for all finite 32-bit and 64-bit patterns `x`, `y` (signed zeros
included), `product_sign(x, y)` bit-exactly equals `copysign(x, x*y)` —
its result is `x` with the sign bit replaced by the XOR of the sign bits of
`x` and `y` (which by IEEE-754 is the sign of the never-performed product
`x * y` of finite operands), for both the `float` and the `double`
overload. -/
theorem product_sign_eq_copysign :
    (∀ x y : Nat, x < 2 ^ 32 → y < 2 ^ 32 → isFinite32 x → isFinite32 y →
      product_sign32 x y = copysign_bits32 x (mul_sign_bits32 x y)) ∧
    (∀ x y : Nat, x < 2 ^ 64 → y < 2 ^ 64 → isFinite64 x → isFinite64 y →
      product_sign64 x y = copysign_bits64 x (mul_sign_bits64 x y)) := by
  constructor
  · intro x y hx _hy _hfx _hfy
    unfold product_sign32 copysign_bits32 mul_sign_bits32
    rw [land_land_self,
      show (0x80000000:Nat) = 2 ^ 31 from by norm_num,
      show (0x7fffffff:Nat) = 2 ^ 31 - 1 from by norm_num]
    exact xor_masked_eq_copysign 31 x y (by simpa using hx)
  · intro x y hx _hy _hfx _hfy
    unfold product_sign64 copysign_bits64 mul_sign_bits64
    rw [land_land_self,
      show (0x8000000000000000:Nat) = 2 ^ 63 from by norm_num,
      show (0x7fffffffffffffff:Nat) = 2 ^ 63 - 1 from by norm_num]
    exact xor_masked_eq_copysign 63 x y (by simpa using hx)

/-- Witness instantiating `product_sign_eq_copysign` at the patterns of
`x = -1.5`, `y = 2.0` in both widths. -/
theorem product_sign_eq_copysign_witness :
    product_sign32 0xBFC00000 0x40000000 =
      copysign_bits32 0xBFC00000 (mul_sign_bits32 0xBFC00000 0x40000000) ∧
    product_sign64 0xBFF8000000000000 0x4000000000000000 =
      copysign_bits64 0xBFF8000000000000
        (mul_sign_bits64 0xBFF8000000000000 0x4000000000000000) :=
  ⟨product_sign_eq_copysign.1 0xBFC00000 0x40000000 (by norm_num) (by norm_num)
      (by unfold isFinite32; decide) (by unfold isFinite32; decide),
    product_sign_eq_copysign.2 0xBFF8000000000000 0x4000000000000000 (by norm_num)
      (by norm_num) (by unfold isFinite64; decide) (by unfold isFinite64; decide)⟩

/-- C10: for every pair of input patterns, NaNs and infinities included, the
result of `product_sign` is the fully determined pattern
`bits(x) XOR (bits(y) AND sign mask)`: it stays in range, all non-sign bits
(magnitude, exponent, NaN payload) are exactly those of `x`, and the sign
bit is the XOR of the two sign bits — for both overloads. -/
theorem product_sign_bit_pattern :
    (∀ x y : Nat, x < 2 ^ 32 → y < 2 ^ 32 →
      product_sign32 x y < 2 ^ 32 ∧
      product_sign32 x y &&& 0x7fffffff = x &&& 0x7fffffff ∧
      (product_sign32 x y).testBit 31 = ((x.testBit 31).xor (y.testBit 31))) ∧
    (∀ x y : Nat, x < 2 ^ 64 → y < 2 ^ 64 →
      product_sign64 x y < 2 ^ 64 ∧
      product_sign64 x y &&& 0x7fffffffffffffff = x &&& 0x7fffffffffffffff ∧
      (product_sign64 x y).testBit 63 = ((x.testBit 63).xor (y.testBit 63))) := by
  constructor
  · intro x y hx _hy
    unfold product_sign32
    rw [show (0x80000000:Nat) = 2 ^ 31 from by norm_num,
      show (0x7fffffff:Nat) = 2 ^ 31 - 1 from by norm_num]
    refine ⟨?_, xor_masked_low 31 x y, xor_masked_sign_bit 31 x y⟩
    exact Nat.xor_lt_two_pow hx
      (lt_of_le_of_lt Nat.and_le_right (by norm_num))
  · intro x y hx _hy
    unfold product_sign64
    rw [show (0x8000000000000000:Nat) = 2 ^ 63 from by norm_num,
      show (0x7fffffffffffffff:Nat) = 2 ^ 63 - 1 from by norm_num]
    refine ⟨?_, xor_masked_low 63 x y, xor_masked_sign_bit 63 x y⟩
    exact Nat.xor_lt_two_pow hx
      (lt_of_le_of_lt Nat.and_le_right (by norm_num))

/-- Witness instantiating `product_sign_bit_pattern` at a NaN with payload
and negative infinity in both widths. -/
theorem product_sign_bit_pattern_witness :
    (product_sign32 0x7FC00001 0xFF800000 < 2 ^ 32 ∧
      product_sign32 0x7FC00001 0xFF800000 &&& 0x7fffffff = 0x7FC00001 &&& 0x7fffffff ∧
      (product_sign32 0x7FC00001 0xFF800000).testBit 31 =
        (((0x7FC00001:Nat).testBit 31).xor ((0xFF800000:Nat).testBit 31))) ∧
    (product_sign64 0x7FF8000000000001 0xFFF0000000000000 < 2 ^ 64 ∧
      product_sign64 0x7FF8000000000001 0xFFF0000000000000 &&& 0x7fffffffffffffff =
        0x7FF8000000000001 &&& 0x7fffffffffffffff ∧
      (product_sign64 0x7FF8000000000001 0xFFF0000000000000).testBit 63 =
        (((0x7FF8000000000001:Nat).testBit 63).xor ((0xFFF0000000000000:Nat).testBit 63))) :=
  ⟨product_sign_bit_pattern.1 0x7FC00001 0xFF800000 (by norm_num) (by norm_num),
    product_sign_bit_pattern.2 0x7FF8000000000001 0xFFF0000000000000 (by norm_num)
      (by norm_num)⟩

/-! Lemmas about loops that write array slots, shared by the shuffle and the
bounding-box extraction. -/

/-- Writing a slot and reading the same in-range slot yields the written
value. -/
theorem getD_set_self {α : Type} (l : List α) (i : Nat) (a d : α) (h : i < l.length) :
    (l.set i a).getD i d = a := by
  rw [List.getD_eq_getElem _ _ (by simpa using h)]
  exact List.getElem_set_self (by simpa using h)

/-- Writing one slot does not change a read of a different slot. -/
theorem getD_set_ne {α : Type} (l : List α) (j i : Nat) (a d : α) (hne : i ≠ j) :
    (l.set j a).getD i d = l.getD i d := by
  by_cases h : i < l.length
  · rw [List.getD_eq_getElem _ _ (by simpa using h), List.getD_eq_getElem _ _ h]
    exact List.getElem_set_ne (fun hc => hne hc.symm) (by simpa using h)
  · rw [List.getD_eq_default _ _ (by simpa using Nat.le_of_not_lt h),
      List.getD_eq_default _ _ (Nat.le_of_not_lt h)]

/-- Length is preserved by a fold that only writes slots. -/
theorem length_foldl_set {α : Type} (v : Nat → α) :
    ∀ (ord : List Nat) (l : List α),
      (ord.foldl (fun acc j => acc.set j (v j)) l).length = l.length := by
  intro ord
  induction ord with
  | nil => intro l; rfl
  | cons j rest ih => intro l; rw [List.foldl_cons, ih, List.length_set]

/-- Value of slot `i` after a fold writing `v j` into every slot `j` listed
in `ord`: the written value if `i` is in range and was written, the original
value otherwise. -/
theorem getD_foldl_set {α : Type} (v : Nat → α) (d : α) :
    ∀ (ord : List Nat) (l : List α) (i : Nat),
      (ord.foldl (fun acc j => acc.set j (v j)) l).getD i d =
        if i ∈ ord ∧ i < l.length then v i else l.getD i d := by
  intro ord
  induction ord with
  | nil =>
    intro l i
    simp
  | cons j rest ih =>
    intro l i
    rw [List.foldl_cons, ih, List.length_set]
    by_cases hmem : i ∈ rest
    · by_cases hlen : i < l.length
      · rw [if_pos ⟨hmem, hlen⟩, if_pos ⟨List.mem_cons_of_mem j hmem, hlen⟩]
      · rw [if_neg (fun hc => hlen hc.2), if_neg (fun hc => hlen hc.2),
          List.getD_eq_default _ _ (by simpa using Nat.le_of_not_lt hlen),
          List.getD_eq_default _ _ (Nat.le_of_not_lt hlen)]
    · rw [if_neg (fun hc => hmem hc.1)]
      by_cases hij : i = j
      · subst hij
        by_cases hlen : i < l.length
        · rw [getD_set_self _ _ _ _ hlen, if_pos ⟨List.mem_cons_self i rest, hlen⟩]
        · rw [if_neg (fun hc => hlen hc.2),
            List.getD_eq_default _ _ (by simpa using Nat.le_of_not_lt hlen),
            List.getD_eq_default _ _ (Nat.le_of_not_lt hlen)]
      · rw [getD_set_ne _ _ _ _ _ hij,
          if_neg (fun hc => (List.mem_cons.mp hc.1).elim hij hmem)]

/-- A fold whose body updates the two components of a pair independently is
the pair of the two component folds. -/
theorem foldl_prod_split {β γ : Type} (f : β → Nat → β) (g : γ → Nat → γ) :
    ∀ (ord : List Nat) (a : β) (b : γ),
      ord.foldl (fun st j => (f st.1 j, g st.2 j)) (a, b) =
        (ord.foldl f a, ord.foldl g b) := by
  intro ord
  induction ord with
  | nil => intro a b; rfl
  | cons j rest ih =>
    intro a b
    rw [List.foldl_cons, List.foldl_cons, List.foldl_cons]
    exact ih (f a j) (g b j)

/-! Properties of `shuffle_primitives`. -/

/-- C3: for a primitive array of length `count` and `indices` a bijection of
`[0, count)` (length `count`, no duplicates, all entries in range — the case
`count = 0` included), after the shuffle the element at every index `i` is
the element originally at `indices[i]`, the length is unchanged, and the
result is a permutation of the input: no element is lost or duplicated. -/
theorem shuffle_primitives_correct {α : Type} (primitives : List α) (indices : List Nat)
    (d : α) (hlen : indices.length = primitives.length) (hnd : indices.Nodup)
    (hbound : ∀ j ∈ indices, j < primitives.length) :
    (shuffle_primitives primitives indices d).length = primitives.length ∧
    (∀ i : Nat, i < primitives.length →
      (shuffle_primitives primitives indices d).getD i d =
        primitives.getD (indices.getD i 0) d) ∧
    (shuffle_primitives primitives indices d).Perm primitives := by
  have hlength : (shuffle_primitives primitives indices d).length = primitives.length :=
    length_foldl_set _ _ _
  have hpoint : ∀ i : Nat, i < primitives.length →
      (shuffle_primitives primitives indices d).getD i d =
        primitives.getD (indices.getD i 0) d := by
    intro i hi
    unfold shuffle_primitives
    rw [getD_foldl_set, if_pos ⟨List.mem_range.mpr hi, hi⟩]
  refine ⟨hlength, hpoint, ?_⟩
  have hmap : shuffle_primitives primitives indices d =
      indices.map (fun j => primitives.getD j d) := by
    apply List.ext_getElem (by rw [hlength, List.length_map, hlen])
    intro i h1 h2
    have hi : i < primitives.length := by rwa [hlength] at h1
    have hii : i < indices.length := by rw [hlen]; exact hi
    rw [← List.getD_eq_getElem _ d h1, hpoint i hi, List.getElem_map,
      List.getD_eq_getElem indices 0 hii]
  have hperm : indices.Perm (List.range primitives.length) :=
    (List.subperm_of_subset hnd
        (fun j hj => List.mem_range.mpr (hbound j hj))).perm_of_length_le
      (by rw [List.length_range, hlen])
  have hrange : (List.range primitives.length).map (fun j => primitives.getD j d) =
      primitives := by
    apply List.ext_getElem (by rw [List.length_map, List.length_range])
    intro i h1 h2
    rw [List.getElem_map, List.getElem_range, List.getD_eq_getElem _ d h2]
  have hfinal := hperm.map (fun j => primitives.getD j d)
  rw [hrange] at hfinal
  rw [hmap]
  exact hfinal

/-- Witness instantiating `shuffle_primitives_correct` with three primitives
and the cyclic permutation `[2, 0, 1]`. -/
theorem shuffle_primitives_correct_witness :
    (shuffle_primitives [10, 20, 30] [2, 0, 1] 0).length =
      ([10, 20, 30] : List Nat).length ∧
    (∀ i : Nat, i < ([10, 20, 30] : List Nat).length →
      (shuffle_primitives [10, 20, 30] [2, 0, 1] 0).getD i 0 =
        ([10, 20, 30] : List Nat).getD (([2, 0, 1] : List Nat).getD i 0) 0) ∧
    (shuffle_primitives [10, 20, 30] [2, 0, 1] 0).Perm [10, 20, 30] :=
  shuffle_primitives_correct [10, 20, 30] [2, 0, 1] 0 (by decide) (by decide) (by decide)

/-! Properties of `compute_bounding_boxes_and_centers`. -/

/-- Component form of the extraction loop: the pair of two independent
slot-writing folds. -/
theorem compute_bbc_ordered_eq {α β γ : Type} (bounding_box : α → β) (center : α → γ)
    (primitives : List α) (dp : α) (db : β) (dc : γ) (ord : List Nat) :
    compute_bbc_ordered bounding_box center primitives dp db dc ord =
      (ord.foldl (fun acc j => acc.set j (bounding_box (primitives.getD j dp)))
        (List.replicate primitives.length db),
       ord.foldl (fun acc j => acc.set j (center (primitives.getD j dp)))
        (List.replicate primitives.length dc)) := by
  unfold compute_bbc_ordered
  exact foldl_prod_split
    (fun acc j => acc.set j (bounding_box (primitives.getD j dp)))
    (fun acc j => acc.set j (center (primitives.getD j dp))) ord
    (List.replicate primitives.length db) (List.replicate primitives.length dc)

/-- Pointwise description of the sequential extraction output, shared by the
correctness and the scheduling-independence theorems. -/
theorem compute_bbc_getD {α β γ : Type} (bounding_box : α → β) (center : α → γ)
    (primitives : List α) (dp : α) (db : β) (dc : γ) (i : Nat)
    (hi : i < primitives.length) :
    (compute_bounding_boxes_and_centers bounding_box center primitives dp db dc).1.getD
        i db = bounding_box (primitives.getD i dp) ∧
    (compute_bounding_boxes_and_centers bounding_box center primitives dp db dc).2.getD
        i dc = center (primitives.getD i dp) := by
  unfold compute_bounding_boxes_and_centers
  rw [compute_bbc_ordered_eq]
  constructor
  · rw [getD_foldl_set, List.length_replicate, if_pos ⟨List.mem_range.mpr hi, hi⟩]
  · rw [getD_foldl_set, List.length_replicate, if_pos ⟨List.mem_range.mpr hi, hi⟩]

/-- C4: the extraction returns two fresh arrays of length `count` with
`boxes[i] = primitives[i].bounding_box()` and
`centers[i] = primitives[i].center()` for every `i < count` (the input list
is a value, untouched by construction). -/
theorem compute_bounding_boxes_and_centers_correct {α β γ : Type} (bounding_box : α → β)
    (center : α → γ) (primitives : List α) (dp : α) (db : β) (dc : γ) :
    (compute_bounding_boxes_and_centers bounding_box center primitives dp db dc).1.length =
      primitives.length ∧
    (compute_bounding_boxes_and_centers bounding_box center primitives dp db dc).2.length =
      primitives.length ∧
    ∀ i : Nat, i < primitives.length →
      (compute_bounding_boxes_and_centers bounding_box center primitives dp db dc).1.getD
          i db = bounding_box (primitives.getD i dp) ∧
      (compute_bounding_boxes_and_centers bounding_box center primitives dp db dc).2.getD
          i dc = center (primitives.getD i dp) := by
  refine ⟨?_, ?_, fun i hi => compute_bbc_getD bounding_box center primitives dp db dc i hi⟩
  · unfold compute_bounding_boxes_and_centers
    rw [compute_bbc_ordered_eq, length_foldl_set, List.length_replicate]
  · unfold compute_bounding_boxes_and_centers
    rw [compute_bbc_ordered_eq, length_foldl_set, List.length_replicate]

/-- Witness instantiating `compute_bounding_boxes_and_centers_correct` on two
primitives, read at index 1. -/
theorem compute_bounding_boxes_and_centers_correct_witness :
    (compute_bounding_boxes_and_centers (fun n : Nat => n + 10) (fun n : Nat => n * 2)
        [3, 5] 0 0 0).1.getD 1 0 = 15 ∧
    (compute_bounding_boxes_and_centers (fun n : Nat => n + 10) (fun n : Nat => n * 2)
        [3, 5] 0 0 0).2.getD 1 0 = 10 :=
  (compute_bounding_boxes_and_centers_correct (fun n : Nat => n + 10)
      (fun n : Nat => n * 2) [3, 5] 0 0 0).2.2 1 (by decide)

/-- C7: each output slot of the extraction depends only on the corresponding
input primitive — two inputs of equal length agreeing at `i` give identical
outputs at `i` — and running the loop iterations in any order (any
permutation of `[0, count)`, modelling any parallel scheduling) produces
exactly the sequential result. -/
theorem compute_bounding_boxes_and_centers_parallel {α β γ : Type}
    (bounding_box : α → β) (center : α → γ) (dp : α) (db : β) (dc : γ) :
    (∀ (p q : List α) (i : Nat), p.length = q.length → i < p.length →
      p.getD i dp = q.getD i dp →
      (compute_bounding_boxes_and_centers bounding_box center p dp db dc).1.getD i db =
        (compute_bounding_boxes_and_centers bounding_box center q dp db dc).1.getD i db ∧
      (compute_bounding_boxes_and_centers bounding_box center p dp db dc).2.getD i dc =
        (compute_bounding_boxes_and_centers bounding_box center q dp db dc).2.getD i dc) ∧
    (∀ (p : List α) (ord : List Nat), ord.Perm (List.range p.length) →
      compute_bbc_ordered bounding_box center p dp db dc ord =
        compute_bounding_boxes_and_centers bounding_box center p dp db dc) := by
  constructor
  · intro p q i hpq hi hagree
    have hiq : i < q.length := by rwa [hpq] at hi
    rcases compute_bbc_getD bounding_box center p dp db dc i hi with ⟨hb1, hc1⟩
    rcases compute_bbc_getD bounding_box center q dp db dc i hiq with ⟨hb2, hc2⟩
    rw [hb1, hb2, hc1, hc2, hagree]
    exact ⟨rfl, rfl⟩
  · intro p ord hperm
    unfold compute_bounding_boxes_and_centers
    rw [compute_bbc_ordered_eq, compute_bbc_ordered_eq]
    have hcomponent : ∀ (β₀ : Type) (v : Nat → β₀) (d : β₀),
        ord.foldl (fun acc j => acc.set j (v j)) (List.replicate p.length d) =
          (List.range p.length).foldl (fun acc j => acc.set j (v j))
            (List.replicate p.length d) := by
      intro β₀ v d
      apply List.ext_getElem (by rw [length_foldl_set, length_foldl_set])
      intro i h1 h2
      rw [← List.getD_eq_getElem _ d h1, ← List.getD_eq_getElem _ d h2,
        getD_foldl_set, getD_foldl_set]
      exact if_congr (and_congr_left (fun _ => hperm.mem_iff)) rfl rfl
    exact Prod.ext (hcomponent β _ db) (hcomponent γ _ dc)

/-- Witness instantiating `compute_bounding_boxes_and_centers_parallel`:
slot independence at index 0 of two lists differing at index 1, and the
reversed execution order `[1, 0]` against the sequential order on two
primitives. -/
theorem compute_bounding_boxes_and_centers_parallel_witness :
    ((compute_bounding_boxes_and_centers (fun n : Nat => n + 10) (fun n : Nat => n * 2)
        [3, 5] 0 0 0).1.getD 0 0 =
      (compute_bounding_boxes_and_centers (fun n : Nat => n + 10) (fun n : Nat => n * 2)
        [3, 7] 0 0 0).1.getD 0 0 ∧
      (compute_bounding_boxes_and_centers (fun n : Nat => n + 10) (fun n : Nat => n * 2)
        [3, 5] 0 0 0).2.getD 0 0 =
      (compute_bounding_boxes_and_centers (fun n : Nat => n + 10) (fun n : Nat => n * 2)
        [3, 7] 0 0 0).2.getD 0 0) ∧
    compute_bbc_ordered (fun n : Nat => n + 10) (fun n : Nat => n * 2) [3, 5] 0 0 0 [1, 0] =
      compute_bounding_boxes_and_centers (fun n : Nat => n + 10) (fun n : Nat => n * 2)
        [3, 5] 0 0 0 :=
  ⟨(compute_bounding_boxes_and_centers_parallel (fun n : Nat => n + 10)
        (fun n : Nat => n * 2) 0 0 0).1 [3, 5] [3, 7] 0 (by decide) (by decide) (by decide),
    (compute_bounding_boxes_and_centers_parallel (fun n : Nat => n + 10)
        (fun n : Nat => n * 2) 0 0 0).2 [3, 5] [1, 0] (by decide)⟩

end BvhSpec
